import Mathlib

/-!
Verification development for the Anomaly_Detection_Transformer repository
(`Transformer.py`).  The Python source is shallowly embedded: tensors of
token IDs become `List ℤ`, weight tensors become `List ℚ` (element-wise,
flattened), real-valued attention / learning-rate arithmetic is carried out
over `ℝ`, and the stateful training loops become explicit state passing.
-/

namespace AnomalyTransformer

/-! ## Weight collections and federated averaging (`average_weights`, `federated_training`) -/

/-- Element-wise tensor addition (the in-place `w_avg[key] += w[i][key]`). -/
def tensorAdd (a b : List ℚ) : List ℚ := List.zipWith (· + ·) a b

/-- Element-wise `torch.div(t, n)`. -/
def tensorDiv (a : List ℚ) (n : ℚ) : List ℚ := a.map (fun x => x / n)

/-- A `state_dict`: a mapping from parameter name to (flattened) tensor. -/
abbrev Weights := List (String × List ℚ)

/-- Dictionary access `w[key]` (state_dict keys are unique, so the first hit
is the dictionary entry). -/
def wLookup (w : Weights) (k : String) : List ℚ := (w.lookup k).getD []

/-- `average_weights(w)` from `Transformer.py`: start from a deep copy of
`w[0]`, accumulate `w[i][key]` for `i = 1 .. len(w)-1` into each key, then
divide by `len(w)`.  (`w_avg` is a deep copy, so no input is mutated; the
embedding is pure.)  Python would raise on an empty argument (`w[0]`), so the
empty case is mapped to the empty collection and never claimed about. -/
def average_weights (w : List Weights) : Weights :=
  match w with
  | [] => []
  | w0 :: rest =>
      w0.map (fun p =>
        (p.1, tensorDiv (rest.foldl (fun acc wi => tensorAdd acc (wLookup wi p.1)) p.2)
          ((rest.length + 1 : ℕ) : ℚ)))

/-- Specification-side mean: the element `j` of the arithmetic mean of the
tensors stored under key `k` across the collections `ws`. -/
def meanAt (ws : List Weights) (k : String) (j : ℕ) : ℚ :=
  ((ws.map (fun wi => (wLookup wi k).getD j 0)).sum) / (ws.length : ℚ)

/-- Python `int()` applied to a rational: truncation toward zero. -/
def pyInt (q : ℚ) : ℤ := if 0 ≤ q then ⌊q⌋ else -⌊-q⌋

/-- `m = max(int(frac * clients), 1)` from `federated_training`. -/
def numSampled (frac : ℚ) (clients : ℕ) : ℕ :=
  max (pyInt (frac * (clients : ℚ))).toNat 1

/-- The contract of `np.random.choice(range(1, clients+1), m, replace=False)`:
the draw is a list of `m` distinct indices from `{1, .., clients}` (the
uniformity of the distribution is not expressible in this embedding). -/
def isChoiceSample (idxs : List ℕ) (clients m : ℕ) : Prop :=
  idxs.length = m ∧ idxs.Nodup ∧ ∀ i ∈ idxs, 1 ≤ i ∧ i ≤ clients

/-- One client visit inside a federated round.  The state is the pair
(global weights, collected local weights).  The client receives
`copy.deepcopy(global_model)` (value semantics here), trains it with
`localTrain`, and its resulting `state_dict` is appended to `local_weights`;
the global weights component is carried through untouched. -/
def collectStep (localTrain : ℕ → Weights → Weights)
    (st : Weights × List Weights) (i : ℕ) : Weights × List Weights :=
  (st.1, st.2 ++ [localTrain i st.1])

/-- State of `federated_training` across rounds: the global model's weights
plus an instrumentation counter of how many times `load_state_dict` has
replaced them. -/
structure FedState where
  globalW : Weights
  writes : ℕ

/-- One communication round: visit every sampled client (collecting local
weights), then average and install the result into the global model —
a single `load_state_dict` per round, after the whole collection. -/
def fedRound (localTrain : ℕ → Weights → Weights) (idxs : List ℕ)
    (s : FedState) : FedState :=
  let c := idxs.foldl (collectStep localTrain) (s.globalW, [])
  { globalW := average_weights c.2, writes := s.writes + 1 }

/-- `federated_training`: for each round, sample
`choice roundIdx clients (numSampled frac clients)` clients (the random draw
`np.random.choice` is an oracle parameter) and run the round. -/
def federated_training (localTrain : ℕ → Weights → Weights)
    (choice : ℕ → ℕ → ℕ → List ℕ) (frac : ℚ) (clients : ℕ)
    (w0 : Weights) (rounds : ℕ) : FedState :=
  (List.range rounds).foldl
    (fun s r => fedRound localTrain (choice r clients (numSampled frac clients)) s)
    ⟨w0, 0⟩

/-! ## Masking and batch construction (`subsequent_mask`, `Batch`) -/

/-- `subsequent_mask(n)` materialised: `np.triu(np.ones((1,n,n)), k=1) == 0`,
i.e. entry `(i, j)` is true iff `j` is NOT in the strict upper triangle
(`j ≥ i + 1`).  The leading broadcast dimension of size 1 is dropped. -/
def subsequentMaskM (n : ℕ) : List (List Bool) :=
  (List.range n).map (fun i => (List.range n).map (fun j => !decide (i + 1 ≤ j)))

/-- Broadcast AND of a padding mask (constant across rows, the
`unsqueeze(-2)` of `(tgt != pad)`) with a square mask. -/
def andMask (pm : List Bool) (sm : List (List Bool)) : List (List Bool) :=
  sm.map (fun row => List.zipWith (fun a b => a && b) pm row)

/-- `Batch.make_std_mask(tgt, pad)`:
`(tgt != pad).unsqueeze(-2) & subsequent_mask(tgt.size(-1))`. -/
def makeStdMask (tgt : List ℤ) (pad : ℤ) : List (List Bool) :=
  andMask (tgt.map (fun a => decide (a ≠ pad))) (subsequentMaskM tgt.length)

/-- The `Batch` object.  `src_mask` keeps one boolean row per example (the
`unsqueeze(-2)` in the source only inserts a broadcast axis);
`trg_mask` keeps one square mask per example. -/
structure BatchT where
  src : List (List ℤ)
  src_mask : List (List Bool)
  trg : List (List ℤ)
  trg_y : List (List ℤ)
  trg_mask : List (List (List Bool))
  ntokens : ℕ

/-- `Batch(src, trg, pad)` with a target present: `trg = trg[:, :-1]`,
`trg_y = trg[:, 1:]`, `trg_mask = make_std_mask(self.trg, pad)`, and
`ntokens = (trg_y != pad).sum()`. -/
def mkBatch (src trg : List (List ℤ)) (pad : ℤ) : BatchT :=
  { src := src
  , src_mask := src.map (fun r => r.map (fun a => decide (a ≠ pad)))
  , trg := trg.map (fun r => r.dropLast)
  , trg_y := trg.map (fun r => r.tail)
  , trg_mask := trg.map (fun r => makeStdMask r.dropLast pad)
  , ntokens := ((trg.map (fun r => r.tail)).map (fun r => r.countP (fun a => a ≠ pad))).sum }

/-! ## `data_gen` -/

/-- `np.round`: round half to even (banker's rounding), as used for the
train/val split sizes.  (`numpy` rounds the double `len * 0.8`; the embedding
computes with exact rationals.) -/
def npRound (q : ℚ) : ℤ :=
  if q - ⌊q⌋ < 1 / 2 then ⌊q⌋
  else if 1 / 2 < q - ⌊q⌋ then ⌊q⌋ + 1
  else if ⌊q⌋ % 2 = 0 then ⌊q⌋ else ⌊q⌋ + 1

/-- Python `l[-k:]`: the last `k` elements — except that `l[-0:]` is the whole
list. -/
def pySliceLast (k : ℕ) (l : List (List ℤ)) : List (List ℤ) :=
  if k = 0 then l else l.drop (l.length - k)

/-- The `mode == "train"` / `mode == "val"` restriction at the top of
`data_gen`: the first `round(0.8 * len)` examples, or the last
`round(0.2 * len)` examples, of both lists. -/
def restrictData (mode : String) (inputs outputs : List (List ℤ)) :
    List (List ℤ) × List (List ℤ) :=
  if mode = "train" then
    let ts := (npRound ((inputs.length : ℚ) * (8 / 10))).toNat
    (inputs.take ts, outputs.take ts)
  else if mode = "val" then
    let vs := (npRound ((inputs.length : ℚ) * (2 / 10))).toNat
    (pySliceLast vs inputs, pySliceLast vs outputs)
  else (inputs, outputs)

/-- One row of the `t1` / `t2` tensors of `data_gen`: a width-`(W+1)` row of
zeros with `row[0] = 1` and `row[1 : len(x)+1] = x` (well-formed only when
`len(x) ≤ W`, which `generate` guarantees). -/
def padRow (W : ℕ) (x : List ℤ) : List ℤ :=
  1 :: (x ++ List.replicate (W - x.length) 0)

/-- Specification-side description of one `data_gen` tensor row: width
`W + 1`, token 1 at position 0, the example's tokens at positions
`1 .. len(x)`, and padding 0 everywhere after them. -/
def rowSpec (W : ℕ) (x row : List ℤ) : Prop :=
  row.length = W + 1
  ∧ row.getD 0 0 = 1
  ∧ (∀ p, p < x.length → row.getD (p + 1) 0 = x.getD p 0)
  ∧ (∀ p, x.length < p → p ≤ W → row.getD p 0 = 0)

/-- The full `t1` (resp. `t2`) tensor: rows built from the first `batch`
examples.  (`data_gen` writes the same examples into the same preallocated
tensor on every batch iteration, so the contents are those of the final
functional value.) -/
def batchTensor (W batch : ℕ) (xs : List (List ℤ)) : List (List ℤ) :=
  (List.range batch).map (fun i => padRow W (xs.getD i []))

/-- The `(src, tgt)` tensor pairs yielded by `data_gen`, one per batch
iteration `j = 0 .. nbatches-1`; the loop body does not depend on `j`. -/
def data_gen_tensors (inputs outputs : List (List ℤ)) (W batch nbatches : ℕ)
    (mode : String) : List (List (List ℤ) × List (List ℤ)) :=
  let p := restrictData mode inputs outputs
  (List.range nbatches).map (fun _ => (batchTensor W batch p.1, batchTensor W batch p.2))

/-- `data_gen`: each yielded value is `Batch(src, tgt, 0)`. -/
def data_gen (inputs outputs : List (List ℤ)) (W batch nbatches : ℕ)
    (mode : String) : List BatchT :=
  (data_gen_tensors inputs outputs W batch nbatches mode).map
    (fun st => mkBatch st.1 st.2 0)

/-! ## `generate` -/

/-- The body of `generate`'s per-line loop: `x = line[0:W]`,
`y = line[W:W*2]`, and `if not y: continue`. -/
def generateLine (W : ℕ) (line : List ℤ) : Option (List ℤ × List ℤ) :=
  let x := line.take W
  let y := (line.drop W).take W
  if y = [] then none else some (x, y)

/-- `generate(log_file, WINDOW_SIZE)` on the already-parsed integer lines of
the file: accumulate the kept `(input, output)` pairs in order. -/
def generate (W : ℕ) (lines : List (List ℤ)) : List (List ℤ) × List (List ℤ) :=
  lines.foldl
    (fun acc line =>
      match generateLine W line with
      | none => acc
      | some xy => (acc.1 ++ [xy.1], acc.2 ++ [xy.2]))
    ([], [])

/-! ## `greedy_decode` -/

/-- `torch.ones(tgt.shape).fill_(start_symbol)`: a tensor of `tgt`'s shape
filled with the start symbol. -/
def fillLike (t : List (List ℤ)) (c : ℤ) : List (List ℤ) :=
  t.map (fun r => r.map (fun _ => c))

/-- Column `i` of a batch of target rows (`tgt[:, i]`). -/
def tgtCol (tgt : List (List ℤ)) (i : ℕ) : List ℤ :=
  tgt.map (fun r => r.getD i 0)

/-- The pieces of the trained model that `greedy_decode` calls.  Their
outputs never flow into the loop state, so their types are abstract;
`generatorFn` stands for `model.generator(out[:, -1])`. -/
structure GDModel (Mem Out Prob : Type) where
  encode : List (List ℤ) → List (List Bool) → Mem
  decode : Mem → List (List Bool) → List (List ℤ) → List (List Bool) → Out
  generatorFn : Out → Prob

/-- Loop state of `greedy_decode`: the autoregressive input `ys`, the
`abnormal_count` accumulator, and an instrumentation counter of
`model.decode` invocations. -/
structure GDState where
  ys : List (List ℤ)
  abnormal_count : ℕ
  decodeCalls : ℕ

/-- One iteration of `greedy_decode`'s loop: decode with the causal mask of
`ys.size(1)`, score the result (`prob`, `predicted` are computed only for
reporting), compare `labels = tgt[:, i]` against `pred`, and bump
`abnormal_count` when any comparison fires.  `ys` is never reassigned
(the token-append code in the source is commented out). -/
def gdStep {Mem Out Prob : Type} (model : GDModel Mem Out Prob) (memory : Mem)
    (src_mask : List (List Bool)) (tgt : List (List ℤ)) (predV : ℤ)
    (s : GDState) (i : ℕ) : GDState :=
  let out := model.decode memory src_mask s.ys (subsequentMaskM (s.ys.headD []).length)
  let _prob := model.generatorFn out
  { ys := s.ys
  , abnormal_count :=
      if (tgtCol tgt i).any (fun l => decide (l = predV)) then s.abnormal_count + 1
      else s.abnormal_count
  , decodeCalls := s.decodeCalls + 1 }

/-- `greedy_decode` run as a state machine: encode the source once, start
from the start-symbol-filled `ys`, and iterate `i = 0 .. max_len - 2`. -/
def greedy_decode_run {Mem Out Prob : Type} (model : GDModel Mem Out Prob)
    (src : List (List ℤ)) (src_mask : List (List Bool)) (tgt : List (List ℤ))
    (max_len : ℕ) (start_symbol predV : ℤ) : GDState :=
  let memory := model.encode src src_mask
  (List.range (max_len - 1)).foldl (gdStep model memory src_mask tgt predV)
    ⟨fillLike tgt start_symbol, 0, 0⟩

/-- `greedy_decode` returns the final `ys`.  (The trailing parameter `g` of
the source is never read and is omitted.) -/
def greedy_decode {Mem Out Prob : Type} (model : GDModel Mem Out Prob)
    (src : List (List ℤ)) (src_mask : List (List Bool)) (tgt : List (List ℤ))
    (max_len : ℕ) (start_symbol predV : ℤ) : List (List ℤ) :=
  (greedy_decode_run model src src_mask tgt max_len start_symbol predV).ys

/-! ## Label smoothing (`LabelSmoothing.forward`) -/

/-- One row of `true_dist` for a true class `t` that survives the padding row
mask: `fill_(smoothing / (size - 2))`, then `scatter_` of
`confidence = 1 - smoothing` at column `t`, then column `padding_idx`
zeroed. -/
def smoothedRow (V padIdx : ℕ) (smoothing : ℚ) (t : ℕ) : List ℚ :=
  ((List.replicate V (smoothing / ((V : ℚ) - 2))).set t (1 - smoothing)).set padIdx 0

/-- The full `true_dist` built by `LabelSmoothing.forward`: one row per
target; rows whose target equals `padding_idx` are zeroed entirely by the
`index_fill_` step. -/
def trueDist (V padIdx : ℕ) (smoothing : ℚ) (targets : List ℕ) : List (List ℚ) :=
  targets.map (fun t => if t = padIdx then List.replicate V 0 else smoothedRow V padIdx smoothing t)

/-! ## `NoamOpt.rate` -/

/-- `NoamOpt.rate(step)`:
`factor * (model_size ** (-0.5) * min(step ** (-0.5), step * warmup ** (-1.5)))`. -/
noncomputable def rate (factor model_size warmup step : ℝ) : ℝ :=
  factor * (model_size ^ ((-0.5 : ℝ)) *
    min (step ^ ((-0.5 : ℝ))) (step * warmup ^ ((-1.5 : ℝ))))

/-! ## Scaled dot-product attention and multi-head attention -/

/-- Dot product of two feature vectors. -/
noncomputable def dotR (xs ys : List ℝ) : ℝ := (List.zipWith (fun a b => a * b) xs ys).sum

/-- `F.softmax(_, dim=-1)` on one row. -/
noncomputable def softmaxL (xs : List ℝ) : List ℝ :=
  xs.map (fun a => Real.exp a / (xs.map Real.exp).sum)

/-- `scores.masked_fill(mask == 0, -1e9)`: where the mask is false, replace
the score with `-1e9`. -/
def maskedFill (s : List (List ℝ)) (m : List (List Bool)) : List (List ℝ) :=
  List.zipWith (fun srow mrow => List.zipWith (fun x b => if b then x else (-1e9 : ℝ)) srow mrow)
    s m

/-- `torch.matmul(A, B)` for row-major matrices as lists of rows. -/
noncomputable def matmulR (A B : List (List ℝ)) : List (List ℝ) :=
  A.map (fun ar =>
    (List.range (B.headD []).length).map (fun j =>
      (List.zipWith (fun a br => a * br.getD j 0) ar B).sum))

/-- `scores = matmul(query, key.transpose(-2, -1)) / math.sqrt(d_k)` with
`d_k = query.size(-1)`. -/
noncomputable def attnScores (q k : List (List ℝ)) : List (List ℝ) :=
  q.map (fun qr => k.map (fun kr => dotR qr kr / Real.sqrt (((q.headD []).length : ℕ) : ℝ)))

/-- `attention(query, key, value, mask, dropout)`:
`scores = matmul(query, key^T) / sqrt(d_k)` with `d_k = query.size(-1)`,
masked fill with `-1e9` where the mask is false, softmax over the last axis,
optional dropout on the weights, and the result pair
`(matmul(p_attn, value), p_attn)`. -/
noncomputable def attention (q k v : List (List ℝ)) (mask : Option (List (List Bool)))
    (dropout : Option (List (List ℝ) → List (List ℝ))) :
    List (List ℝ) × List (List ℝ) :=
  let scores := attnScores q k
  let scores2 := match mask with
    | none => scores
    | some m => maskedFill scores m
  let p0 := scores2.map softmaxL
  let p := match dropout with
    | none => p0
    | some f => f p0
  (matmulR p v, p)

/-- `nn.Linear(d, d)` applied to one feature vector: `W x + b`, one output
coordinate per weight row. -/
noncomputable def linearApply (W : List (List ℝ)) (b : List ℝ) (x : List ℝ) : List ℝ :=
  List.zipWith (fun wrow bi => dotR wrow x + bi) W b

/-- The head-split `view(nbatches, -1, h, d_k).transpose(1, 2)` for one batch
element: head `t` holds, for every sequence position, coordinates
`[t * d_k, (t+1) * d_k)` of that position's feature row. -/
def headSplit (h dk : ℕ) (x : List (List ℝ)) : List (List (List ℝ)) :=
  (List.range h).map (fun t => x.map (fun row => (row.drop (t * dk)).take dk))

/-- The concat `transpose(1, 2).contiguous().view(nbatches, -1, h * d_k)` for
one batch element: sequence position `i` is the concatenation of every
head's row `i`. -/
def concatHeads (headOuts : List (List (List ℝ))) : List (List ℝ) :=
  (List.range (headOuts.headD []).length).map
    (fun i => (headOuts.map (fun hd => hd.getD i [])).flatten)

/-- A constructed `MultiHeadedAttention` module: head count, model width,
per-head width, and the four linear projections. -/
structure MHA where
  h : ℕ
  d_model : ℕ
  d_k : ℕ
  wq : List (List ℝ)
  bq : List ℝ
  wk : List (List ℝ)
  bk : List ℝ
  wv : List (List ℝ)
  bv : List ℝ
  wo : List (List ℝ)
  bo : List ℝ

/-- `MultiHeadedAttention.__init__(h, d_model)`: `assert d_model % h == 0`
(for `h = 0` Python raises `ZeroDivisionError`, so construction also fails);
on success `d_k = d_model // h` and the four `nn.Linear(d_model, d_model)`
parameter sets are stored. -/
def mhaInit (h d_model : ℕ)
    (wq : List (List ℝ)) (bq : List ℝ) (wk : List (List ℝ)) (bk : List ℝ)
    (wv : List (List ℝ)) (bv : List ℝ) (wo : List (List ℝ)) (bo : List ℝ) :
    Option MHA :=
  if h ≠ 0 ∧ d_model % h = 0 then
    some ⟨h, d_model, d_model / h, wq, bq, wk, bk, wv, bv, wo, bo⟩
  else none

/-- `MultiHeadedAttention.forward` on one batch element: project
query/key/value, split into heads, run scaled dot-product attention per head
(the mask, when present, is shared across heads), concatenate the head
outputs, and apply the final linear.  `nn.Dropout` on the attention weights
is shape-preserving and is modelled as the identity (evaluation mode). -/
noncomputable def mhaForward (cfg : MHA) (q k v : List (List ℝ))
    (mask : Option (List (List Bool))) : List (List ℝ) :=
  let q1 := q.map (linearApply cfg.wq cfg.bq)
  let k1 := k.map (linearApply cfg.wk cfg.bk)
  let v1 := v.map (linearApply cfg.wv cfg.bv)
  let qh := headSplit cfg.h cfg.d_k q1
  let kh := headSplit cfg.h cfg.d_k k1
  let vh := headSplit cfg.h cfg.d_k v1
  let outs := (List.range cfg.h).map
    (fun t => (attention (qh.getD t []) (kh.getD t []) (vh.getD t []) mask none).1)
  (concatHeads outs).map (linearApply cfg.wo cfg.bo)

/-- `MultiHeadedAttention.forward` over a whole batch. -/
noncomputable def mhaForwardBatch (cfg : MHA) (q k v : List (List (List ℝ)))
    (mask : Option (List (List Bool))) : List (List (List ℝ)) :=
  (List.zip q (List.zip k v)).map (fun t => mhaForward cfg t.1 t.2.1 t.2.2 mask)

/-! ## General helper lemmas -/

theorem getD_of_lt {α : Type} (l : List α) (d : α) (p : ℕ) (h : p < l.length) :
    l.getD p d = l[p] := by
  simp [List.getD_eq_getElem?_getD, List.getElem?_eq_getElem h]

/-! ## Theorems about `generate` (C9) -/

theorem generate_foldl_eq (W : ℕ) (lines : List (List ℤ)) (a b : List (List ℤ)) :
    lines.foldl
      (fun acc line =>
        match generateLine W line with
        | none => acc
        | some xy => (acc.1 ++ [xy.1], acc.2 ++ [xy.2]))
      (a, b)
    = (a ++ (lines.filterMap (generateLine W)).map Prod.fst,
       b ++ (lines.filterMap (generateLine W)).map Prod.snd) := by
  induction lines generalizing a b with
  | nil => simp
  | cons line rest ih =>
      cases h : generateLine W line with
      | none => simp [List.filterMap_cons, h, ih]
      | some xy => simp [List.filterMap_cons, h, ih]

/-- C9: each parsed line of length `n` yields input `line[0:W]`
(the first `min(n, W)` tokens) and target `line[W:2W]` (the tokens at
positions `[W, min(n, 2W))`); a line whose target slice is empty — exactly
the lines with `n ≤ W` — is skipped and contributes to neither returned
list, and every other line contributes exactly one pair, in order. -/
theorem generate_window_slicing (W : ℕ) (hW : 0 < W) (lines : List (List ℤ))
    (line : List ℤ) :
    (generate W lines).1 = (lines.filterMap (generateLine W)).map Prod.fst
    ∧ (generate W lines).2 = (lines.filterMap (generateLine W)).map Prod.snd
    ∧ (generateLine W line = none ↔ line.length ≤ W)
    ∧ (W < line.length →
        ∃ x y, generateLine W line = some (x, y)
          ∧ x.length = min line.length W
          ∧ (∀ p, p < x.length → x.getD p 0 = line.getD p 0)
          ∧ y.length = min line.length (2 * W) - W
          ∧ (∀ p, p < y.length → y.getD p 0 = line.getD (W + p) 0)) := by
  refine ⟨?_, ?_, ?_, ?_⟩
  · rw [generate, generate_foldl_eq]; simp
  · rw [generate, generate_foldl_eq]; simp
  · rw [generateLine]
    constructor
    · intro h
      by_cases hy : (line.drop W).take W = []
      · rcases List.take_eq_nil_iff.mp hy with h0 | hd
        · omega
        · have := List.drop_eq_nil_iff.mp hd
          omega
      · simp [hy] at h
    · intro h
      have hd : line.drop W = [] := List.drop_eq_nil_of_le h
      simp [hd]
  · intro hlen
    have hy : (line.drop W).take W ≠ [] := by
      intro hnil
      rcases List.take_eq_nil_iff.mp hnil with h0 | hd
      · omega
      · have := List.drop_eq_nil_iff.mp hd
        omega
    refine ⟨line.take W, (line.drop W).take W, ?_, ?_, ?_, ?_, ?_⟩
    · rw [generateLine]
      simp [hy]
    · simp [Nat.min_comm]
    · intro p hp
      simp only [List.length_take] at hp
      have hp2 : p < line.length := lt_of_lt_of_le hp (by omega)
      rw [getD_of_lt _ _ _ (by simp; omega), getD_of_lt _ _ _ hp2]
      simp
    · simp
      omega
    · intro p hp
      simp only [List.length_take, List.length_drop] at hp
      have hp2 : W + p < line.length := by omega
      rw [getD_of_lt _ _ _ (by simp; omega), getD_of_lt _ _ _ hp2]
      simp

theorem generate_window_slicing_witness :
    0 < 2
    ∧ ((generate 2 [[5, 6, 7], [9]]).1 = [[5, 6]]
        ∧ (generate 2 [[5, 6, 7], [9]]).2 = [[7]]
        ∧ (generateLine 2 ([9] : List ℤ) = none ↔ ([9] : List ℤ).length ≤ 2)) := by
  have h1 := generate_window_slicing 2 (by decide) [[5, 6, 7], [9]] [9]
  exact ⟨by decide, by rw [h1.1]; decide, by rw [h1.2.1]; decide, h1.2.2.1⟩

/-! ## Theorems about `greedy_decode` (C8) -/

theorem gdStep_foldl_ys {Mem Out Prob : Type} (model : GDModel Mem Out Prob)
    (memory : Mem) (src_mask : List (List Bool)) (tgt : List (List ℤ)) (predV : ℤ)
    (l : List ℕ) (s : GDState) :
    (l.foldl (gdStep model memory src_mask tgt predV) s).ys = s.ys
    ∧ (l.foldl (gdStep model memory src_mask tgt predV) s).decodeCalls
      = s.decodeCalls + l.length := by
  induction l generalizing s with
  | nil => simp
  | cons i rest ih =>
      have h := ih (gdStep model memory src_mask tgt predV s i)
      simp only [List.foldl_cons, h]
      constructor
      · rfl
      · simp [gdStep]
        omega

/-- C8: `greedy_decode` encodes the source once (the single `model.encode`
call feeding every loop iteration), performs exactly `max_len - 1` decode
iterations, never modifies the autoregressive input `ys` — after any list of
iterations `ys` still equals the `start_symbol`-filled tensor of `tgt`'s
shape — and returns that unchanged tensor. -/
theorem greedy_decode_no_feedback {Mem Out Prob : Type} (model : GDModel Mem Out Prob)
    (src : List (List ℤ)) (src_mask : List (List Bool)) (tgt : List (List ℤ))
    (max_len : ℕ) (start_symbol predV : ℤ) :
    greedy_decode model src src_mask tgt max_len start_symbol predV
      = fillLike tgt start_symbol
    ∧ (greedy_decode_run model src src_mask tgt max_len start_symbol predV).decodeCalls
      = max_len - 1
    ∧ (∀ pre : List ℕ,
        (pre.foldl (gdStep model (model.encode src src_mask) src_mask tgt predV)
          ⟨fillLike tgt start_symbol, 0, 0⟩).ys = fillLike tgt start_symbol) := by
  refine ⟨?_, ?_, ?_⟩
  · rw [greedy_decode, greedy_decode_run]
    exact (gdStep_foldl_ys _ _ _ _ _ _ _).1
  · rw [greedy_decode_run]
    have h := (gdStep_foldl_ys model (model.encode src src_mask) src_mask tgt predV
      (List.range (max_len - 1)) ⟨fillLike tgt start_symbol, 0, 0⟩).2
    simpa using h
  · intro pre
    exact (gdStep_foldl_ys _ _ _ _ _ pre _).1

/-! ## Theorems about `Batch` (C4) -/

theorem makeStdMask_entry (t : List ℤ) (pad : ℤ) (i j : ℕ) (hi : i < t.length)
    (hj : j < t.length) :
    (((makeStdMask t pad).getD i []).getD j false = true
      ↔ (t.getD j pad ≠ pad ∧ j ≤ i)) := by
  have h1 : (makeStdMask t pad).length = t.length := by
    simp [makeStdMask, andMask, subsequentMaskM]
  have hi2 : i < (makeStdMask t pad).length := by rw [h1]; exact hi
  rw [getD_of_lt (makeStdMask t pad) [] i hi2]
  have h2 : (makeStdMask t pad)[i]
      = List.zipWith (fun a b => a && b) (t.map (fun a => decide (a ≠ pad)))
          ((List.range t.length).map (fun j => !decide (i + 1 ≤ j))) := by
    simp [makeStdMask, andMask, subsequentMaskM]
  rw [h2]
  have hlen : (List.zipWith (fun a b => a && b) (t.map (fun a => decide (a ≠ pad)))
      ((List.range t.length).map (fun j => !decide (i + 1 ≤ j)))).length = t.length := by
    simp
  rw [getD_of_lt _ false j (by rw [hlen]; exact hj)]
  rw [List.getElem_zipWith]
  rw [getD_of_lt t pad j hj]
  simp only [List.getElem_map, List.getElem_range, Bool.and_eq_true, decide_eq_true_eq,
    Bool.not_eq_eq_eq_not, Bool.not_true, decide_eq_false_iff_not]
  constructor
  · rintro ⟨hp, hc⟩
    exact ⟨hp, by omega⟩
  · rintro ⟨hp, hc⟩
    exact ⟨hp, by omega⟩

/-- C4: for targets of uniform per-example length `L ≥ 2`, `Batch` sets the
teacher-forcing input to the first `L - 1` tokens and the prediction target
to the last `L - 1` tokens (identical lengths, one less than `L`); the
target mask at `(i, j)` is true iff the teacher input's token `j` is
non-padding and `j ≤ i`; and `ntokens` counts the non-padding positions of
`trg_y`. -/
theorem batch_shift_mask_ntokens (src trg : List (List ℤ)) (pad : ℤ) (L : ℕ)
    (hL : 2 ≤ L) (hrows : ∀ r ∈ trg, r.length = L) (b : ℕ) (hb : b < trg.length) :
    ((mkBatch src trg pad).trg.getD b []).length = L - 1
    ∧ ((mkBatch src trg pad).trg_y.getD b []).length = L - 1
    ∧ (mkBatch src trg pad).trg.getD b [] = (trg.getD b []).take (L - 1)
    ∧ (mkBatch src trg pad).trg_y.getD b [] = (trg.getD b []).drop 1
    ∧ (∀ i j, i < L - 1 → j < L - 1 →
        ((((mkBatch src trg pad).trg_mask.getD b []).getD i []).getD j false = true
          ↔ (((mkBatch src trg pad).trg.getD b []).getD j pad ≠ pad ∧ j ≤ i)))
    ∧ (mkBatch src trg pad).ntokens
      = ((mkBatch src trg pad).trg_y.flatten.countP (fun a => a ≠ pad)) := by
  have hrL : (trg[b]).length = L := hrows _ (List.getElem_mem hb)
  have htrg : (mkBatch src trg pad).trg.getD b [] = (trg[b]).dropLast := by
    rw [mkBatch]
    rw [getD_of_lt _ _ _ (by simpa using hb)]
    simp
  have htrgy : (mkBatch src trg pad).trg_y.getD b [] = (trg[b]).tail := by
    rw [mkBatch]
    rw [getD_of_lt _ _ _ (by simpa using hb)]
    simp
  have hmask : (mkBatch src trg pad).trg_mask.getD b []
      = makeStdMask (trg[b]).dropLast pad := by
    rw [mkBatch]
    rw [getD_of_lt _ _ _ (by simpa using hb)]
    simp
  have hgetD : trg.getD b [] = trg[b] := getD_of_lt _ _ _ hb
  refine ⟨?_, ?_, ?_, ?_, ?_, ?_⟩
  · rw [htrg]; simp [hrL]
  · rw [htrgy]; simp [hrL]
  · rw [htrg, hgetD, List.dropLast_eq_take, hrL]
  · rw [htrgy, hgetD, List.drop_one]
  · intro i j hi hj
    rw [hmask, htrg]
    have hlen : ((trg[b]).dropLast).length = L - 1 := by simp [hrL]
    exact makeStdMask_entry _ pad i j (by rw [hlen]; exact hi) (by rw [hlen]; exact hj)
  · rw [mkBatch]
    simp [List.countP_flatten]

theorem batch_shift_mask_ntokens_witness :
    (2 ≤ 3 ∧ (∀ r ∈ ([[1, 5, 0]] : List (List ℤ)), r.length = 3) ∧ 0 < 1)
    ∧ ((mkBatch [[1, 2]] [[1, 5, 0]] 0).trg.getD 0 []).length = 2
    ∧ (mkBatch [[1, 2]] [[1, 5, 0]] 0).ntokens
      = ((mkBatch [[1, 2]] [[1, 5, 0]] 0).trg_y.flatten.countP (fun a => a ≠ 0)) := by
  have h := batch_shift_mask_ntokens [[1, 2]] [[1, 5, 0]] 0 3 (by decide)
    (by decide) 0 (by decide)
  exact ⟨⟨by decide, by decide, by decide⟩, h.1, h.2.2.2.2.2⟩

/-! ## Theorems about `data_gen` (C10) -/

theorem padRow_rowSpec (W : ℕ) (x : List ℤ) (hx : x.length ≤ W) :
    rowSpec W x (padRow W x) := by
  refine ⟨?_, ?_, ?_, ?_⟩
  · simp [padRow]
    omega
  · rfl
  · intro p hp
    have hlt : p + 1 < (padRow W x).length := by
      simp [padRow]
      omega
    rw [getD_of_lt _ _ _ hlt, getD_of_lt _ _ _ hp]
    have hpa : p < (x ++ List.replicate (W - x.length) 0).length := by simp; omega
    show (x ++ List.replicate (W - x.length) 0)[p] = x[p]
    exact List.getElem_append_left hp
  · intro p hp hpW
    have hlt : p < (padRow W x).length := by
      simp [padRow]
      omega
    rw [getD_of_lt _ _ _ hlt]
    rcases Nat.exists_eq_add_of_lt (Nat.lt_of_lt_of_le hp (Nat.le_of_lt (Nat.lt_succ_of_le hpW))) with h
    have hp1 : 1 ≤ p := by omega
    have hpc : p < (1 :: (x ++ List.replicate (W - x.length) 0)).length := hlt
    show (1 :: (x ++ List.replicate (W - x.length) 0))[p] = 0
    rw [List.getElem_cons]
    split
    · omega
    · rw [List.getElem_append_right (by omega)]
      exact List.getElem_replicate _ _

theorem data_gen_tensors_getD (inputs outputs : List (List ℤ)) (W batch nb : ℕ)
    (mode : String) (j : ℕ) (hj : j < nb) :
    (data_gen_tensors inputs outputs W batch nb mode).getD j ([], [])
      = (batchTensor W batch (restrictData mode inputs outputs).1,
         batchTensor W batch (restrictData mode inputs outputs).2) := by
  rw [data_gen_tensors]
  rw [getD_of_lt _ _ _ (by simpa using hj)]
  simp

theorem batchTensor_getD (W batch : ℕ) (xs : List (List ℤ)) (i : ℕ) (hi : i < batch) :
    (batchTensor W batch xs).getD i [] = padRow W (xs.getD i []) := by
  rw [batchTensor]
  rw [getD_of_lt _ _ _ (by simpa using hi)]
  simp

/-- C10: `data_gen` yields exactly `nbatches` batches, all identical — the
batch index never selects different examples — and each one is
`Batch(t1, t2, 0)` where row `i` of `t1` (resp. `t2`) is the width-`(W+1)`
row holding token 1 at position 0, then the tokens of the `i`-th of the
first `batch` examples of the (possibly train/val-restricted) dataset, then
padding zeros. -/
theorem data_gen_constant_batches (inputs outputs : List (List ℤ)) (W batch nb : ℕ)
    (mode : String)
    (hbi : batch ≤ (restrictData mode inputs outputs).1.length)
    (hbo : batch ≤ (restrictData mode inputs outputs).2.length)
    (hwi : ∀ x ∈ (restrictData mode inputs outputs).1, x.length ≤ W)
    (hwo : ∀ y ∈ (restrictData mode inputs outputs).2, y.length ≤ W) :
    (data_gen inputs outputs W batch nb mode).length = nb
    ∧ (∀ j1 j2, j1 < nb → j2 < nb →
        (data_gen inputs outputs W batch nb mode).getD j1 (mkBatch [] [] 0)
          = (data_gen inputs outputs W batch nb mode).getD j2 (mkBatch [] [] 0))
    ∧ (∀ j, j < nb →
        (data_gen inputs outputs W batch nb mode).getD j (mkBatch [] [] 0)
          = mkBatch (batchTensor W batch (restrictData mode inputs outputs).1)
              (batchTensor W batch (restrictData mode inputs outputs).2) 0)
    ∧ (∀ j i, j < nb → i < batch →
        rowSpec W ((restrictData mode inputs outputs).1.getD i [])
          (((data_gen_tensors inputs outputs W batch nb mode).getD j ([], [])).1.getD i [])
        ∧ rowSpec W ((restrictData mode inputs outputs).2.getD i [])
            (((data_gen_tensors inputs outputs W batch nb mode).getD j ([], [])).2.getD i [])) := by
  have hdg : ∀ j, j < nb →
      (data_gen inputs outputs W batch nb mode).getD j (mkBatch [] [] 0)
        = mkBatch (batchTensor W batch (restrictData mode inputs outputs).1)
            (batchTensor W batch (restrictData mode inputs outputs).2) 0 := by
    intro j hj
    rw [data_gen]
    have hlen : (data_gen_tensors inputs outputs W batch nb mode).length = nb := by
      simp [data_gen_tensors]
    rw [getD_of_lt _ _ _ (by simp [hlen]; exact hj)]
    rw [List.getElem_map]
    have := data_gen_tensors_getD inputs outputs W batch nb mode j hj
    rw [getD_of_lt _ _ _ (by rw [hlen]; exact hj)] at this
    rw [this]
  refine ⟨?_, ?_, hdg, ?_⟩
  · simp [data_gen, data_gen_tensors]
  · intro j1 j2 h1 h2
    rw [hdg j1 h1, hdg j2 h2]
  · intro j i hj hi
    rw [data_gen_tensors_getD inputs outputs W batch nb mode j hj]
    constructor
    · rw [batchTensor_getD _ _ _ _ hi]
      refine padRow_rowSpec _ _ ?_
      have hmem : (restrictData mode inputs outputs).1.getD i []
          ∈ (restrictData mode inputs outputs).1 := by
        rw [getD_of_lt _ _ _ (by omega)]
        exact List.getElem_mem _
      exact hwi _ hmem
    · rw [batchTensor_getD _ _ _ _ hi]
      refine padRow_rowSpec _ _ ?_
      have hmem : (restrictData mode inputs outputs).2.getD i []
          ∈ (restrictData mode inputs outputs).2 := by
        rw [getD_of_lt _ _ _ (by omega)]
        exact List.getElem_mem _
      exact hwo _ hmem

theorem data_gen_constant_batches_witness :
    (1 ≤ (restrictData "" [[7]] [[8]]).1.length
      ∧ 1 ≤ (restrictData "" [[7]] [[8]]).2.length
      ∧ (∀ x ∈ (restrictData "" [[7]] [[8]]).1, x.length ≤ 2)
      ∧ (∀ y ∈ (restrictData "" [[7]] [[8]]).2, y.length ≤ 2))
    ∧ (data_gen [[7]] [[8]] 2 1 3 "").length = 3 := by
  have h := data_gen_constant_batches [[7]] [[8]] 2 1 3 ""
    (by decide) (by decide) (by decide) (by decide)
  exact ⟨⟨by decide, by decide, by decide, by decide⟩, h.1⟩

/-! ## Theorems about `LabelSmoothing` (C5) -/

theorem smoothedRow_entries (V padIdx t : ℕ) (s : ℚ) (hV : 3 ≤ V)
    (hp : padIdx < V) (ht : t < V) (htp : t ≠ padIdx) :
    (smoothedRow V padIdx s t).getD t 0 = 1 - s
    ∧ (smoothedRow V padIdx s t).getD padIdx 0 = 0
    ∧ (∀ j, j < V → j ≠ t → j ≠ padIdx →
        (smoothedRow V padIdx s t).getD j 0 = s / ((V : ℚ) - 2)) := by
  have hlen : (smoothedRow V padIdx s t).length = V := by simp [smoothedRow]
  refine ⟨?_, ?_, ?_⟩
  · rw [getD_of_lt _ _ _ (by rw [hlen]; exact ht)]
    simp [smoothedRow, List.getElem_set, Ne.symm htp]
  · rw [getD_of_lt _ _ _ (by rw [hlen]; exact hp)]
    simp [smoothedRow]
  · intro j hj hjt hjp
    rw [getD_of_lt _ _ _ (by rw [hlen]; exact hj)]
    simp [smoothedRow, List.getElem_set, Ne.symm hjt, Ne.symm hjp]

theorem smoothedRow_sum (V padIdx t : ℕ) (s : ℚ) (hV : 3 ≤ V)
    (hp : padIdx < V) (ht : t < V) (htp : t ≠ padIdx) :
    (smoothedRow V padIdx s t).sum = 1 := by
  have hVq : (3 : ℚ) ≤ (V : ℚ) := by exact_mod_cast hV
  have hne : (V : ℚ) - 2 ≠ 0 := by linarith
  rw [smoothedRow]
  rw [List.sum_set']
  rw [List.sum_set']
  have hps : padIdx < ((List.replicate V (s / ((V : ℚ) - 2))).set t (1 - s)).length := by
    simp [hp]
  have h1 : ((List.replicate V (s / ((V : ℚ) - 2))).set t (1 - s))[padIdx]
      = s / ((V : ℚ) - 2) := by
    rw [List.getElem_set_ne (fun h => htp h)]
    exact List.getElem_replicate _ _
  rw [dif_pos (by simp [hp] : padIdx < ((List.replicate V (s / ((V : ℚ) - 2))).set t (1 - s)).length)]
  rw [dif_pos (by simp [ht] : t < (List.replicate V (s / ((V : ℚ) - 2))).length)]
  rw [h1]
  rw [List.getElem_replicate]
  rw [List.sum_replicate]
  rw [nsmul_eq_mul]
  field_simp
  ring

/-- C5: a `LabelSmoothing.forward` row whose true class `t` is not the
padding class carries `1 - smoothing` at `t`, zero at the padding class,
`smoothing / (V - 2)` at every other class, and sums to 1; a row whose true
class equals the padding class is zeroed entirely and sums to 0. -/
theorem label_smoothing_rows (V padIdx t : ℕ) (s : ℚ) (hV : 3 ≤ V)
    (hp : padIdx < V) (ht : t < V) :
    (t ≠ padIdx →
      (smoothedRow V padIdx s t).getD t 0 = 1 - s
      ∧ (smoothedRow V padIdx s t).getD padIdx 0 = 0
      ∧ (∀ j, j < V → j ≠ t → j ≠ padIdx →
          (smoothedRow V padIdx s t).getD j 0 = s / ((V : ℚ) - 2))
      ∧ (smoothedRow V padIdx s t).sum = 1)
    ∧ (∀ targets : List ℕ, ∀ i, i < targets.length → targets.getD i 0 = padIdx →
        (trueDist V padIdx s targets).getD i [] = List.replicate V 0
        ∧ ((trueDist V padIdx s targets).getD i []).sum = 0) := by
  constructor
  · intro htp
    obtain ⟨h1, h2, h3⟩ := smoothedRow_entries V padIdx t s hV hp ht htp
    exact ⟨h1, h2, h3, smoothedRow_sum V padIdx t s hV hp ht htp⟩
  · intro targets i hi hpad
    have hrow : (trueDist V padIdx s targets).getD i [] = List.replicate V 0 := by
      rw [trueDist]
      rw [getD_of_lt _ _ _ (by simpa using hi)]
      rw [List.getElem_map]
      rw [getD_of_lt _ _ _ hi] at hpad
      rw [if_pos hpad]
    refine ⟨hrow, ?_⟩
    rw [hrow]
    simp

theorem label_smoothing_rows_witness :
    (3 ≤ 5 ∧ 0 < 5 ∧ 2 < 5 ∧ (2 : ℕ) ≠ 0)
    ∧ (smoothedRow 5 0 (1 / 10) 2).sum = 1
    ∧ (trueDist 5 0 (1 / 10) [0]).getD 0 [] = List.replicate 5 0 := by
  have h := label_smoothing_rows 5 0 2 (1 / 10) (by decide) (by decide) (by decide)
  exact ⟨⟨by decide, by decide, by decide, by decide⟩,
    (h.1 (by decide)).2.2.2, (h.2 [0] 0 (by decide) (by decide)).1⟩

/-! ## Theorems about `average_weights` (C2) -/

theorem lookup_map_pairs (l : Weights) (g : String → List ℚ → List ℚ) (k : String)
    (t : List ℚ) (h : l.lookup k = some t) :
    (l.map (fun p => (p.1, g p.1 p.2))).lookup k = some (g k t) := by
  induction l with
  | nil => simp at h
  | cons a rest ih =>
      obtain ⟨a1, a2⟩ := a
      rw [List.lookup_cons] at h
      rw [List.map_cons, List.lookup_cons]
      cases hk : k == a1 with
      | true =>
          rw [hk] at h
          simp only at h
          have hke : k = a1 := by simpa using hk
          simp only []
          cases h
          rw [← hke]
      | false =>
          rw [hk] at h
          simp only at h
          simp only []
          exact ih h

theorem foldl_tensorAdd_getD (ls : List (List ℚ)) (acc : List ℚ)
    (h : ∀ x ∈ ls, x.length = acc.length) :
    (ls.foldl tensorAdd acc).length = acc.length
    ∧ ∀ j, j < acc.length →
        (ls.foldl tensorAdd acc).getD j 0
          = acc.getD j 0 + (ls.map (fun x => x.getD j 0)).sum := by
  induction ls generalizing acc with
  | nil => simp
  | cons x rest ih =>
      have hx : x.length = acc.length := h x (by simp)
      have hlen : (tensorAdd acc x).length = acc.length := by
        simp [tensorAdd, hx]
      have hrest : ∀ y ∈ rest, y.length = (tensorAdd acc x).length := by
        intro y hy
        rw [hlen]
        exact h y (by simp [hy])
      obtain ⟨l1, l2⟩ := ih (tensorAdd acc x) hrest
      constructor
      · rw [List.foldl_cons, l1, hlen]
      · intro j hj
        rw [List.foldl_cons, l2 j (by rw [hlen]; exact hj)]
        have hadd : (tensorAdd acc x).getD j 0 = acc.getD j 0 + x.getD j 0 := by
          rw [getD_of_lt _ _ _ (by rw [hlen]; exact hj)]
          simp only [tensorAdd, List.getElem_zipWith]
          rw [getD_of_lt _ _ _ hj, getD_of_lt _ _ _ (by rw [hx]; exact hj)]
        rw [hadd, List.map_cons, List.sum_cons]
        ring

/-- C2: for a non-empty list of weight collections with identical key sets
and per-key shapes, `average_weights` maps every key to the element-wise
arithmetic mean of that key's tensors across the list (the embedding is
pure — `w_avg` is a deep copy, so no input collection is mutated), and on a
single-element list it is the identity. -/
theorem average_weights_mean (w0 : Weights) (rest : List Weights)
    (hshape : ∀ wi ∈ rest, ∀ k t, w0.lookup k = some t → (wLookup wi k).length = t.length) :
    (∀ k t, w0.lookup k = some t → ∀ j, j < t.length →
        (wLookup (average_weights (w0 :: rest)) k).getD j 0 = meanAt (w0 :: rest) k j)
    ∧ (∀ wsingle : Weights, average_weights [wsingle] = wsingle) := by
  constructor
  · intro k t hk j hj
    have hlk : (average_weights (w0 :: rest)).lookup k
        = some (tensorDiv (rest.foldl (fun acc wi => tensorAdd acc (wLookup wi k)) t)
            ((rest.length + 1 : ℕ) : ℚ)) := by
      rw [average_weights]
      exact lookup_map_pairs w0
        (fun k1 t1 => tensorDiv (rest.foldl (fun acc wi => tensorAdd acc (wLookup wi k1)) t1)
          ((rest.length + 1 : ℕ) : ℚ)) k t hk
    have hfold : rest.foldl (fun acc wi => tensorAdd acc (wLookup wi k)) t
        = (rest.map (fun wi => wLookup wi k)).foldl tensorAdd t := by
      rw [List.foldl_map]
    have hls : ∀ x ∈ rest.map (fun wi => wLookup wi k), x.length = t.length := by
      intro x hx
      obtain ⟨wi, hwi, rfl⟩ := List.mem_map.mp hx
      exact hshape wi hwi k t hk
    obtain ⟨flen, fval⟩ := foldl_tensorAdd_getD (rest.map (fun wi => wLookup wi k)) t hls
    rw [wLookup, hlk]
    simp only [Option.getD_some]
    rw [tensorDiv, hfold]
    rw [getD_of_lt _ _ _ (by simp [flen]; exact hj)]
    rw [List.getElem_map]
    rw [← getD_of_lt _ (0 : ℚ) _ (by rw [flen]; exact hj)]
    rw [fval j hj]
    rw [meanAt]
    have hw0 : wLookup w0 k = t := by rw [wLookup, hk]; rfl
    rw [List.map_cons, List.sum_cons, hw0, List.map_map]
    have hcast : (((w0 :: rest).length : ℕ) : ℚ) = ((rest.length + 1 : ℕ) : ℚ) := by
      simp
    rw [hcast]
    rfl
  · intro wsingle
    rw [average_weights]
    have : ∀ p : String × List ℚ,
        (p.1, tensorDiv (([] : List Weights).foldl
          (fun acc wi => tensorAdd acc (wLookup wi p.1)) p.2) ((0 + 1 : ℕ) : ℚ)) = p := by
      intro p
      simp [tensorDiv]
    simp only [List.length_nil, this]
    exact List.map_id wsingle

theorem average_weights_mean_witness :
    (∀ wi ∈ [[("w", [(4 : ℚ)])]], ∀ k t, ([(("w" : String), [(2 : ℚ)])].lookup k) = some t
      → (wLookup wi k).length = t.length)
    ∧ (wLookup (average_weights [[("w", [(2 : ℚ)])], [("w", [4])]]) "w").getD 0 0
        = meanAt [[("w", [(2 : ℚ)])], [("w", [4])]] "w" 0
    ∧ meanAt [[("w", [(2 : ℚ)])], [("w", [4])]] "w" 0 = 3
    ∧ average_weights [[("w", [(2 : ℚ)])]] = [("w", [2])] := by
  have hshape : ∀ wi ∈ [[(("w" : String), [(4 : ℚ)])]], ∀ k t,
      ([(("w" : String), [(2 : ℚ)])].lookup k) = some t → (wLookup wi k).length = t.length := by
    intro wi hwi k t hk
    simp only [List.mem_singleton] at hwi
    subst hwi
    have hkw : k = "w" := by
      by_cases h : (k == "w") = true
      · simpa using h
      · rw [List.lookup_cons] at hk
        rw [Bool.not_eq_true] at h
        rw [h] at hk
        simp at hk
    subst hkw
    have ht : t = [2] := by
      rw [List.lookup_cons_self] at hk
      exact (Option.some.inj hk).symm
    subst ht
    rfl
  have h := average_weights_mean [("w", [(2 : ℚ)])] [[("w", [4])]] hshape
  refine ⟨hshape, h.1 "w" [2] (by rfl) 0 (by decide), ?_, h.2 [("w", [2])]⟩
  norm_num [meanAt, wLookup, List.lookup]

/-! ## Theorems about `federated_training` (C1) -/

theorem collect_foldl (localTrain : ℕ → Weights → Weights) (idxs : List ℕ)
    (gw : Weights) (acc : List Weights) :
    (idxs.foldl (collectStep localTrain) (gw, acc)).1 = gw
    ∧ (idxs.foldl (collectStep localTrain) (gw, acc)).2
      = acc ++ idxs.map (fun i => localTrain i gw) := by
  induction idxs generalizing acc with
  | nil => simp
  | cons i rest ih =>
      rw [List.foldl_cons]
      have hstep : collectStep localTrain (gw, acc) i = (gw, acc ++ [localTrain i gw]) := rfl
      rw [hstep]
      obtain ⟨h1, h2⟩ := ih (acc ++ [localTrain i gw])
      exact ⟨h1, by rw [h2]; simp⟩

theorem fed_foldl_writes (localTrain : ℕ → Weights → Weights)
    (choice : ℕ → ℕ → ℕ → List ℕ) (frac : ℚ) (clients : ℕ) (l : List ℕ) (s : FedState) :
    ((l.foldl (fun s r => fedRound localTrain (choice r clients (numSampled frac clients)) s) s).writes)
      = s.writes + l.length := by
  induction l generalizing s with
  | nil => simp
  | cons r rest ih =>
      rw [List.foldl_cons, ih]
      have : (fedRound localTrain (choice r clients (numSampled frac clients)) s).writes
          = s.writes + 1 := rfl
      rw [this, List.length_cons]
      omega

/-- C1: in every round of `federated_training` the sampled-client list drawn
by `np.random.choice` has exactly `max(int(frac * clients), 1)` distinct
members of `{1, .., clients}`; during the collection phase the global
weights are never modified and each sampled client trains an independent
copy of the round-start global weights (so no client's update is visible to
the global model or to any other client); the new global weights are the
average of all collected local weights, installed only after the whole
collection; and the global model is replaced exactly once per round. -/
theorem federated_round_protocol (localTrain : ℕ → Weights → Weights)
    (choice : ℕ → ℕ → ℕ → List ℕ) (frac : ℚ) (clients : ℕ) (w0 : Weights) (rounds : ℕ)
    (hs : ∀ r, r < rounds →
      isChoiceSample (choice r clients (numSampled frac clients)) clients
        (numSampled frac clients)) :
    (∀ r, r < rounds →
        (choice r clients (numSampled frac clients)).length
          = max (pyInt (frac * (clients : ℚ))).toNat 1
        ∧ (choice r clients (numSampled frac clients)).Nodup
        ∧ (∀ i ∈ choice r clients (numSampled frac clients), 1 ≤ i ∧ i ≤ clients))
    ∧ (∀ idxs : List ℕ, ∀ gw : Weights,
        (idxs.foldl (collectStep localTrain) (gw, [])).1 = gw
        ∧ (idxs.foldl (collectStep localTrain) (gw, [])).2
          = idxs.map (fun i => localTrain i gw))
    ∧ (∀ idxs : List ℕ, ∀ s : FedState,
        (fedRound localTrain idxs s).globalW
          = average_weights (idxs.map (fun i => localTrain i s.globalW)))
    ∧ (federated_training localTrain choice frac clients w0 rounds).writes = rounds := by
  refine ⟨?_, ?_, ?_, ?_⟩
  · intro r hr
    obtain ⟨h1, h2, h3⟩ := hs r hr
    exact ⟨h1, h2, h3⟩
  · intro idxs gw
    have h := collect_foldl localTrain idxs gw []
    exact ⟨h.1, by rw [h.2]; simp⟩
  · intro idxs s
    rw [fedRound]
    have h := collect_foldl localTrain idxs s.globalW []
    simp only []
    rw [h.2]
    simp
  · rw [federated_training, fed_foldl_writes]
    simp

theorem federated_round_protocol_witness :
    (∀ r, r < 1 →
      isChoiceSample ((fun (_ _ _ : ℕ) => [1]) r 1 (numSampled 1 1)) 1 (numSampled 1 1))
    ∧ (federated_training (fun _ w => w) (fun _ _ _ => [1]) 1 1 [("a", [2])] 1).writes = 1 := by
  have hnum : numSampled 1 1 = 1 := by
    norm_num [numSampled, pyInt]
  have hs : ∀ r, r < 1 →
      isChoiceSample ((fun (_ _ _ : ℕ) => [1]) r 1 (numSampled 1 1)) 1 (numSampled 1 1) := by
    intro r hr
    rw [hnum]
    refine ⟨rfl, ?_, ?_⟩
    · show ([1] : List ℕ).Nodup
      decide
    · show ∀ i ∈ ([1] : List ℕ), 1 ≤ i ∧ i ≤ 1
      decide
  exact ⟨hs,
    (federated_round_protocol (fun _ w => w) (fun _ _ _ => [1]) 1 1 [("a", [2])] 1 hs).2.2.2⟩

/-! ## Theorems about `attention` (C3) -/

theorem sum_map_exp_pos (xs : List ℝ) (h : xs ≠ []) : 0 < (xs.map Real.exp).sum := by
  cases xs with
  | nil => exact absurd rfl h
  | cons a rest =>
      rw [List.map_cons, List.sum_cons]
      have h1 : 0 < Real.exp a := Real.exp_pos a
      have h2 : 0 ≤ (rest.map Real.exp).sum := by
        apply List.sum_nonneg
        intro x hx
        obtain ⟨y, _, rfl⟩ := List.mem_map.mp hx
        exact le_of_lt (Real.exp_pos y)
      linarith

theorem sum_map_mul_const (ys : List ℝ) (c : ℝ) :
    (ys.map (fun y => y * c)).sum = ys.sum * c := by
  induction ys with
  | nil => simp
  | cons a rest ih =>
      rw [List.map_cons, List.sum_cons, List.sum_cons, ih]
      ring

theorem softmaxL_sum (xs : List ℝ) (h : xs ≠ []) : (softmaxL xs).sum = 1 := by
  have hS : 0 < (xs.map Real.exp).sum := sum_map_exp_pos xs h
  rw [softmaxL]
  have hth : (fun a => Real.exp a / (xs.map Real.exp).sum)
      = fun a => Real.exp a * ((xs.map Real.exp).sum)⁻¹ := by
    funext a
    rw [div_eq_mul_inv]
  rw [hth]
  have hmm : xs.map (fun a => Real.exp a * ((xs.map Real.exp).sum)⁻¹)
      = (xs.map Real.exp).map (fun y => y * ((xs.map Real.exp).sum)⁻¹) := by
    rw [List.map_map]
    rfl
  rw [hmm, sum_map_mul_const]
  exact mul_inv_cancel₀ (ne_of_gt hS)

/-- C3: with a mask present and dropout absent, `attention` replaces every
score whose mask entry is false by `-1e9`, softmaxes each row of the
(masked) score matrix `matmul(q, k^T) / sqrt(d_k)`, and returns
`(weights · value, weights)`; every attention-weight row that is not fully
masked sums to exactly 1, and both results have as many rows as `query`. -/
theorem attention_softmax_rows (q k v : List (List ℝ)) (m : List (List Bool)) (i : ℕ)
    (hm : m.length = q.length)
    (hrow : ∀ r ∈ m, r.length = k.length)
    (hi : i < q.length)
    (hnm : ((m.getD i []).any (fun b => b)) = true) :
    ((attention q k v (some m) none).2.getD i []).sum = 1
    ∧ (attention q k v (some m) none).1.length = q.length
    ∧ (attention q k v (some m) none).2.length = q.length
    ∧ (attention q k v (some m) none).1 = matmulR (attention q k v (some m) none).2 v
    ∧ (∀ j, j < k.length → (m.getD i []).getD j false = false →
        ((maskedFill (attnScores q k) m).getD i []).getD j 0 = -1e9) := by
  have hsl : (attnScores q k).length = q.length := by simp [attnScores]
  have hfl : (maskedFill (attnScores q k) m).length = q.length := by
    simp [maskedFill, hsl, hm]
  have him : i < m.length := by rw [hm]; exact hi
  have hfi : i < (maskedFill (attnScores q k) m).length := by rw [hfl]; exact hi
  have hsi : i < (attnScores q k).length := by rw [hsl]; exact hi
  have hmi : m.getD i [] = m[i] := getD_of_lt _ _ _ him
  have hmil : (m[i]).length = k.length := hrow _ (List.getElem_mem him)
  have hrow_i : (maskedFill (attnScores q k) m)[i]
      = List.zipWith (fun x b => if b then x else (-1e9 : ℝ))
          ((attnScores q k)[i]) (m[i]) := by
    simp only [maskedFill, List.getElem_zipWith]
  have hsil : ((attnScores q k)[i]).length = k.length := by
    simp [attnScores]
  have hmrow_len : ((maskedFill (attnScores q k) m)[i]).length
      = k.length := by
    rw [hrow_i]
    simp [hsil, hmil]
  have hk : 0 < k.length := by
    rw [hmi] at hnm
    rcases List.any_eq_true.mp hnm with ⟨b, hb, _⟩
    have : 0 < (m[i]).length := List.length_pos.mpr (List.ne_nil_of_mem hb)
    rw [hmil] at this
    exact this
  have hp2 : (attention q k v (some m) none).2 = (maskedFill (attnScores q k) m).map softmaxL := rfl
  refine ⟨?_, ?_, ?_, rfl, ?_⟩
  · rw [hp2]
    rw [getD_of_lt _ _ _ (by simp [hfl]; exact hi)]
    rw [List.getElem_map]
    apply softmaxL_sum
    intro hnil
    rw [← List.length_eq_zero] at hnil
    rw [hmrow_len] at hnil
    omega
  · show (matmulR ((maskedFill (attnScores q k) m).map softmaxL) v).length = q.length
    simp [matmulR, hfl]
  · rw [hp2]
    simp [hfl]
  · intro j hj hmj
    rw [getD_of_lt (maskedFill (attnScores q k) m) [] i (by rw [hfl]; exact hi)]
    rw [hrow_i]
    rw [getD_of_lt _ _ j (by simp [hsil, hmil]; exact hj)]
    rw [List.getElem_zipWith]
    rw [hmi] at hmj
    rw [getD_of_lt _ _ j (by rw [hmil]; exact hj)] at hmj
    rw [hmj]
    simp

theorem attention_softmax_rows_witness :
    ([[true]] : List (List Bool)).length = ([[(1 : ℝ)]] : List (List ℝ)).length
    ∧ (∀ r ∈ ([[true]] : List (List Bool)), r.length = ([[(1 : ℝ)]] : List (List ℝ)).length)
    ∧ 0 < ([[(1 : ℝ)]] : List (List ℝ)).length
    ∧ ((([[true]] : List (List Bool)).getD 0 []).any (fun b => b)) = true
    ∧ ((attention [[(1 : ℝ)]] [[1]] [[1]] (some [[true]]) none).2.getD 0 []).sum = 1 := by
  have h := attention_softmax_rows [[(1 : ℝ)]] [[1]] [[1]] [[true]] 0 rfl
    (by intro r hr; simp at hr; subst hr; rfl) (by simp) (by decide)
  exact ⟨rfl, by intro r hr; simp at hr; subst hr; rfl, by simp, by decide, h.1⟩

/-! ## Theorems about `MultiHeadedAttention` (C7) -/

theorem headD_eq_getD {α : Type} (l : List α) (d : α) : l.headD d = l.getD 0 d := by
  cases l <;> rfl

theorem linearApply_length (W : List (List ℝ)) (b : List ℝ) (x : List ℝ) :
    (linearApply W b x).length = min W.length b.length := by
  simp [linearApply]

theorem attention_none_length (q k v : List (List ℝ)) :
    (attention q k v none none).1.length = q.length := by
  simp [attention, matmulR, attnScores]

theorem headSplit_getD_zero (hh dk : ℕ) (h0 : 0 < hh) (x : List (List ℝ)) :
    (headSplit hh dk x).getD 0 [] = x.map (fun row => (row.drop 0).take dk) := by
  rw [headSplit]
  rw [getD_of_lt _ _ _ (by simp; omega)]
  rw [List.getElem_map, List.getElem_range]
  simp

/-- C7: constructing `MultiHeadedAttention(h, d_model)` succeeds iff
`d_model` is divisible by `h` (the `assert d_model % h == 0`); on success,
`forward` maps a batch of `(seq_len, d_model)` inputs to a batch of the same
length whose rows all keep `seq_len` positions of width `d_model`. -/
theorem mha_init_and_shape (h d : ℕ) (hh : 1 ≤ h)
    (wq : List (List ℝ)) (bq : List ℝ) (wk : List (List ℝ)) (bk : List ℝ)
    (wv : List (List ℝ)) (bv : List ℝ) (wo : List (List ℝ)) (bo : List ℝ)
    (hwo : wo.length = d) (hbo : bo.length = d) :
    ((mhaInit h d wq bq wk bk wv bv wo bo).isSome ↔ d % h = 0)
    ∧ (∀ cfg, mhaInit h d wq bq wk bk wv bv wo bo = some cfg →
        ∀ q k v : List (List ℝ),
          (mhaForward cfg q k v none).length = q.length
          ∧ (∀ r ∈ mhaForward cfg q k v none, r.length = d)
          ∧ (∀ qb kb vb : List (List (List ℝ)), qb.length = kb.length →
              kb.length = vb.length →
              (mhaForwardBatch cfg qb kb vb none).length = qb.length)) := by
  have h0 : h ≠ 0 := by omega
  constructor
  · by_cases hc : d % h = 0
    · simp [mhaInit, hc, h0]
    · simp [mhaInit, hc]
  · intro cfg heq q k v
    have hcfg : cfg = ⟨h, d, d / h, wq, bq, wk, bk, wv, bv, wo, bo⟩ := by
      rw [mhaInit] at heq
      by_cases hc : h ≠ 0 ∧ d % h = 0
      · rw [if_pos hc] at heq
        exact (Option.some.inj heq).symm
      · rw [if_neg hc] at heq
        exact absurd heq (by simp)
    subst hcfg
    refine ⟨?_, ?_, ?_⟩
    · rw [mhaForward]
      simp only [concatHeads, List.length_map, List.length_range]
      rw [headD_eq_getD, getD_of_lt _ _ 0 (by simp; omega)]
      rw [List.getElem_map, List.getElem_range]
      rw [attention_none_length]
      rw [headSplit_getD_zero h (d / h) (by omega)]
      simp
    · intro r hr
      rw [mhaForward] at hr
      simp only [List.mem_map] at hr
      obtain ⟨x, _, rfl⟩ := hr
      rw [linearApply_length, hwo, hbo]
      simp
    · intro qb kb vb h1 h2
      rw [mhaForwardBatch]
      simp [h1, h2]

theorem mha_init_and_shape_witness :
    (1 ≤ 7 ∧ (List.replicate 512 ([] : List ℝ)).length = 512
      ∧ (List.replicate 512 (0 : ℝ)).length = 512)
    ∧ (mhaInit 7 512 (List.replicate 512 ([] : List ℝ)) (List.replicate 512 (0 : ℝ))
        (List.replicate 512 ([] : List ℝ)) (List.replicate 512 (0 : ℝ)) (List.replicate 512 ([] : List ℝ))
        (List.replicate 512 (0 : ℝ)) (List.replicate 512 ([] : List ℝ)) (List.replicate 512 (0 : ℝ))).isSome
        = false
    ∧ (mhaInit 8 512 (List.replicate 512 ([] : List ℝ)) (List.replicate 512 (0 : ℝ))
        (List.replicate 512 ([] : List ℝ)) (List.replicate 512 (0 : ℝ)) (List.replicate 512 ([] : List ℝ))
        (List.replicate 512 (0 : ℝ)) (List.replicate 512 ([] : List ℝ)) (List.replicate 512 (0 : ℝ))).isSome
        = true := by
  have h7 := (mha_init_and_shape 7 512 (by decide) (List.replicate 512 ([] : List ℝ)) (List.replicate 512 (0 : ℝ))
    (List.replicate 512 ([] : List ℝ)) (List.replicate 512 (0 : ℝ)) (List.replicate 512 ([] : List ℝ))
    (List.replicate 512 (0 : ℝ)) (List.replicate 512 ([] : List ℝ)) (List.replicate 512 (0 : ℝ))
    (by rw [List.length_replicate]) (by rw [List.length_replicate])).1
  have h8 := (mha_init_and_shape 8 512 (by decide) (List.replicate 512 ([] : List ℝ)) (List.replicate 512 (0 : ℝ))
    (List.replicate 512 ([] : List ℝ)) (List.replicate 512 (0 : ℝ)) (List.replicate 512 ([] : List ℝ))
    (List.replicate 512 (0 : ℝ)) (List.replicate 512 ([] : List ℝ)) (List.replicate 512 (0 : ℝ))
    (by rw [List.length_replicate]) (by rw [List.length_replicate])).1
  refine ⟨⟨by decide, by rw [List.length_replicate], by rw [List.length_replicate]⟩, ?_, ?_⟩
  · rw [Bool.eq_false_iff]
    intro hs
    have := h7.mp hs
    omega
  · exact h8.mpr (by decide)

/-! ## Theorems about `NoamOpt.rate` (C6) -/

theorem rpow_neg_anti (a b c : ℝ) (ha : 0 < a) (hab : a ≤ b) (hc : 0 < c) :
    b ^ (-c) ≤ a ^ (-c) := by
  have hb : 0 < b := lt_of_lt_of_le ha hab
  rw [Real.rpow_neg (le_of_lt hb), Real.rpow_neg (le_of_lt ha)]
  exact inv_anti₀ (Real.rpow_pos_of_pos ha c)
    (Real.rpow_le_rpow (le_of_lt ha) hab (le_of_lt hc))

theorem rpow_neg_anti_strict (a b c : ℝ) (ha : 0 < a) (hab : a < b) (hc : 0 < c) :
    b ^ (-c) < a ^ (-c) := by
  have hb : 0 < b := lt_trans ha hab
  rw [Real.rpow_neg (le_of_lt hb), Real.rpow_neg (le_of_lt ha)]
  exact inv_strictAnti₀ (Real.rpow_pos_of_pos ha c)
    (Real.rpow_lt_rpow (le_of_lt ha) hab hc)

theorem rate_split_exponent (s : ℝ) (hs : 0 < s) :
    s * s ^ ((-1.5 : ℝ)) = s ^ ((-0.5 : ℝ)) := by
  nth_rewrite 1 [← Real.rpow_one s]
  rw [← Real.rpow_add hs]
  norm_num

theorem min_branch_low (s w : ℝ) (hs : 0 < s) (hw : 0 < w) (hsw : s ≤ w) :
    min (s ^ ((-0.5 : ℝ))) (s * w ^ ((-1.5 : ℝ))) = s * w ^ ((-1.5 : ℝ)) := by
  apply min_eq_right
  have h1 : w ^ ((-1.5 : ℝ)) ≤ s ^ ((-1.5 : ℝ)) :=
    rpow_neg_anti s w 1.5 hs hsw (by norm_num)
  have h2 : s * w ^ ((-1.5 : ℝ)) ≤ s * s ^ ((-1.5 : ℝ)) :=
    mul_le_mul_of_nonneg_left h1 (le_of_lt hs)
  rw [← rate_split_exponent s hs]
  exact h2

theorem min_branch_high (s w : ℝ) (hw : 0 < w) (hws : w ≤ s) :
    min (s ^ ((-0.5 : ℝ))) (s * w ^ ((-1.5 : ℝ))) = s ^ ((-0.5 : ℝ)) := by
  have hs : 0 < s := lt_of_lt_of_le hw hws
  apply min_eq_left
  have h1 : s ^ ((-1.5 : ℝ)) ≤ w ^ ((-1.5 : ℝ)) :=
    rpow_neg_anti w s 1.5 hw hws (by norm_num)
  rw [← rate_split_exponent s hs]
  exact mul_le_mul_of_nonneg_left h1 (le_of_lt hs)

/-- C6: `NoamOpt.rate` follows
`factor * model_size^(-0.5) * min(s^(-0.5), s * warmup^(-1.5))`: with
positive `factor`, `model_size` and `warmup` fixed, the rate increases
strictly up to the warmup step and decreases strictly beyond it; in
particular `rate(step=1, warmup=4000) < rate(step=4000, warmup=4000)`. -/
theorem noam_rate_schedule (factor model_size : ℝ) (hf : 0 < factor)
    (hd : 0 < model_size) :
    (∀ w s1 s2 : ℝ, 0 < w → 0 < s1 → s1 < s2 → s2 ≤ w →
        rate factor model_size w s1 < rate factor model_size w s2)
    ∧ (∀ w s1 s2 : ℝ, 0 < w → w ≤ s1 → s1 < s2 →
        rate factor model_size w s2 < rate factor model_size w s1)
    ∧ rate factor model_size 4000 1 < rate factor model_size 4000 4000 := by
  have hdpow : 0 < model_size ^ ((-0.5 : ℝ)) := Real.rpow_pos_of_pos hd _
  have hinc : ∀ w s1 s2 : ℝ, 0 < w → 0 < s1 → s1 < s2 → s2 ≤ w →
      rate factor model_size w s1 < rate factor model_size w s2 := by
    intro w s1 s2 hw hs1 h12 h2w
    have hs2 : 0 < s2 := lt_trans hs1 h12
    rw [rate, rate]
    rw [min_branch_low s1 w hs1 hw (by linarith), min_branch_low s2 w hs2 hw h2w]
    have hK : 0 < w ^ ((-1.5 : ℝ)) := Real.rpow_pos_of_pos hw _
    exact mul_lt_mul_of_pos_left
      (mul_lt_mul_of_pos_left (mul_lt_mul_of_pos_right h12 hK) hdpow) hf
  have hdec : ∀ w s1 s2 : ℝ, 0 < w → w ≤ s1 → s1 < s2 →
      rate factor model_size w s2 < rate factor model_size w s1 := by
    intro w s1 s2 hw hws1 h12
    have hs1 : 0 < s1 := lt_of_lt_of_le hw hws1
    rw [rate, rate]
    rw [min_branch_high s1 w hw hws1, min_branch_high s2 w hw (by linarith)]
    exact mul_lt_mul_of_pos_left
      (mul_lt_mul_of_pos_left (rpow_neg_anti_strict s1 s2 0.5 hs1 h12 (by norm_num)) hdpow) hf
  exact ⟨hinc, hdec,
    hinc 4000 1 4000 (by norm_num) (by norm_num) (by norm_num) (by norm_num)⟩

theorem noam_rate_schedule_witness :
    (0 : ℝ) < 2 ∧ (0 : ℝ) < 512
    ∧ rate 2 512 4000 1 < rate 2 512 4000 4000 := by
  have h := noam_rate_schedule 2 512 (by norm_num) (by norm_num)
  exact ⟨by norm_num, by norm_num, h.2.2⟩

end AnomalyTransformer
